import Mathlib

/-!
Verification of the version-tag computation core of `scripts/create_tag.py`.

The Python functions `increment_semver`, `coerce_tag_name`,
`sort_versions_desc`, `determine_new_tag` and the pure tag-resolution part
of `main` (lines 135-148) are embedded as Lean definitions over
`List Char` / `String`.  Exceptions (`ValueError`) are embedded as
`Except String`.  The regular expression
`(\d+)\.(\d+)\.(\d+)(?:[-.]?([0-9A-Za-z.-]+))?` used with `re.match` is
embedded by `matchSemver` below, following the leftmost-greedy backtracking
semantics of the Python `re` engine.
-/

namespace CreateTag

/-- The character class `[0-9A-Za-z.-]` of the prerelease group. -/
def isPreChar (c : Char) : Bool := c.isAlphanum || c = '.' || c = '-'

/-- Python `int` on a decimal digit string, as a fold over its digits. -/
def digitsToNat (l : List Char) : Nat := l.foldl (fun a c => 10 * a + (c.toNat - 48)) 0

/-- The decimal digit character for a remainder `r < 10` (clamped at 9). -/
def digitChar (r : Nat) : Char :=
  match r with
  | 0 => '0' | 1 => '1' | 2 => '2' | 3 => '3' | 4 => '4'
  | 5 => '5' | 6 => '6' | 7 => '7' | 8 => '8' | _ => '9'

/--
Helper for decimal printing: pushes the digits of `n` onto `acc`, recursing
on a fuel bound (any fuel at least `n` is enough, since `n / 10 < n`).
-/
def natToDigitsAux : Nat → Nat → List Char → List Char
  | 0, _, acc => acc
  | fuel + 1, n, acc =>
    if n = 0 then acc
    else natToDigitsAux fuel (n / 10) (digitChar (n % 10) :: acc)

/-- Decimal printing of a natural number, as Python `str`/f-string on an `int`. -/
def natToDigits (n : Nat) : List Char := if n = 0 then ['0'] else natToDigitsAux n n []

/-- Decimal printing, packaged as a `String`. -/
def natToString (n : Nat) : String := String.mk (natToDigits n)

/--
The optional tail `(?:[-.]?([0-9A-Za-z.-]+))?` of the version regex, applied
to the text remaining after the patch digits.  Greedy with backtracking:
the engine first lets `[-.]?` consume a separator; if the mandatory
`[0-9A-Za-z.-]+` then finds nothing, the separator is given back and the
`+` group consumes the separator character itself (both `-` and `.` are in
the class).  Returns the captured group, `none` when the group matched empty.
-/
def matchPre : List Char → Option (List Char)
  | [] => none
  | c :: r =>
    if c = '-' ∨ c = '.' then
      let p := r.takeWhile isPreChar
      if p.isEmpty then some [c] else some p
    else
      let p := (c :: r).takeWhile isPreChar
      if p.isEmpty then none else some p

/--
`re.match` of `(\d+)\.(\d+)\.(\d+)(?:[-.]?([0-9A-Za-z.-]+))?` on a char list:
three maximal digit runs separated by literal dots, then the optional
prerelease group.  Returns the integer values of the three runs and the
captured prerelease text.  `\d+` is maximal because a shorter run would have
to be followed by `.` where a digit stands, and the tail group can always
match empty, so the engine never backtracks into the digit runs.
-/
def matchSemver (l : List Char) : Option (Nat × Nat × Nat × Option (List Char)) :=
  let d1 := l.takeWhile Char.isDigit
  let r1 := l.dropWhile Char.isDigit
  if d1.isEmpty then none
  else if r1.head? ≠ some '.' then none
  else
    let d2 := r1.tail.takeWhile Char.isDigit
    let r2 := r1.tail.dropWhile Char.isDigit
    if d2.isEmpty then none
    else if r2.head? ≠ some '.' then none
    else
      let d3 := r2.tail.takeWhile Char.isDigit
      let r3 := r2.tail.dropWhile Char.isDigit
      if d3.isEmpty then none
      else some (digitsToNat d1, digitsToNat d2, digitsToNat d3, matchPre r3)

/--
`base = f"{major}.{minor}.{patch}"; return f"v{base}-{pre}" if pre else f"v{base}"`:
the common output builder of `increment_semver` and `coerce_tag_name`;
`if pre` is Python truthiness, so an empty captured label renders the plain form.
-/
def renderTag (m n p : Nat) (pre : Option (List Char)) : String :=
  let base := natToString m ++ "." ++ natToString n ++ "." ++ natToString p
  match pre with
  | some l => if l.isEmpty then "v" ++ base else "v" ++ base ++ "-" ++ String.mk l
  | none => "v" ++ base

/-- Python `str.strip()`: remove leading and trailing whitespace. -/
def pstrip (l : List Char) : List Char :=
  ((l.dropWhile Char.isWhitespace).reverse.dropWhile Char.isWhitespace).reverse

/-- Python `'.'.join(parts)`: concatenate the pieces with a dot between. -/
def joinDot : List (List Char) → List Char
  | [] => []
  | [x] => x
  | x :: y :: t => x ++ '.' :: joinDot (y :: t)

/-- Python `str.split('.')`: split at every dot, keeping empty pieces. -/
def splitDot : List Char → List (List Char)
  | [] => [[]]
  | c :: r =>
    if c = '.' then [] :: splitDot r
    else
      match splitDot r with
      | [] => [[c]]
      | h :: t => (c :: h) :: t

/-- Python `str.isdigit()` restricted to ASCII: non-empty and all digits. -/
def isdigitStr (l : List Char) : Bool := !l.isEmpty && l.all Char.isDigit

/-- Does the second list start with the first one? -/
def leadsWith : List Char → List Char → Bool
  | [], _ => true
  | _ :: _, [] => false
  | a :: xs, b :: ys => a == b && leadsWith xs ys

/-- Python `needle in hay` on strings: contiguous substring containment. -/
def containsSeq (needle : List Char) : List Char → Bool
  | [] => leadsWith needle []
  | hay :: rest => leadsWith needle (hay :: rest) || containsSeq needle rest

/--
Lines 40-46 of `increment_semver`: split the prerelease label on `.`;
if the last segment is numeric, replace it by its successor, otherwise
append a new segment `1`; re-join with `.`.
-/
def bumpPre (l : List Char) : List Char :=
  let parts := splitDot l
  let parts2 :=
    if !parts.isEmpty && isdigitStr (parts.getLastD []) then
      parts.dropLast ++ [natToDigits (digitsToNat (parts.getLastD []) + 1)]
    else parts ++ [['1']]
  joinDot parts2

/--
`increment_semver(current, bump, prerelease, prerelease_identifier)`:
strip every leading `v`, match the version regex (raising
`ValueError: Invalid semantic version: ...` on failure, embedded as
`Except.error`), then bump per the rule.  The call
`packaging_version.parse(cur)` on line 22 discards its result and is
modelled from the spec as total (§4.1: parsing of a version tag never
throws; §9 replaces the external library by the self-contained model),
hence it is a no-op here.  Python `prerelease_identifier in pre` is the
substring test, embedded as `containsSeq`; `if pre and ...` is truthiness,
so the label must also be non-empty.
-/
def increment_semver (current bump : String) (prerelease : Bool)
    (prerelease_identifier : String) : Except String String :=
  let cur := current.data.dropWhile (· == 'v')
  match matchSemver cur with
  | none => Except.error ("Invalid semantic version: " ++ current)
  | some (major, minor, patch, pre) =>
    if bump = "major" then Except.ok (renderTag (major + 1) 0 0 none)
    else if bump = "minor" then Except.ok (renderTag major (minor + 1) 0 none)
    else if bump = "patch" then Except.ok (renderTag major minor (patch + 1) none)
    else if bump = "prerelease" then
      match pre with
      | some l =>
        if !l.isEmpty && containsSeq prerelease_identifier.data l then
          Except.ok (renderTag major minor patch (some (bumpPre l)))
        else if prerelease then
          Except.ok (renderTag major minor patch
            (some (prerelease_identifier.data ++ ['.', '1'])))
        else Except.ok (renderTag major minor (patch + 1) none)
      | none =>
        if prerelease then
          Except.ok (renderTag major minor patch
            (some (prerelease_identifier.data ++ ['.', '1'])))
        else Except.ok (renderTag major minor (patch + 1) none)
    else Except.ok (renderTag major minor (patch + 1) none)

/--
`coerce_tag_name(tag)`: strip whitespace, strip one leading `refs/tags/`,
strip every leading `v`, match the version regex; on success rebuild the
canonical `v{int(major)}.{int(minor)}.{int(patch)}[-{pre}]`, else `none`.
-/
def coerce_tag_name (tag : String) : Option String :=
  let t0 := pstrip tag.data
  let t1 := if t0.take 10 = "refs/tags/".data then t0.drop 10 else t0
  let tnv := t1.dropWhile (· == 'v')
  match matchSemver tnv with
  | none => none
  | some (m, n, p, pre) => some (renderTag m n p pre)

/-- The text the prerelease part of `renderTag` contributes after the patch digits. -/
def preRest : Option (List Char) → List Char
  | none => []
  | some P => '-' :: P

/--
Modelled from the spec: the comparison key of one dot-separated prerelease
segment under the version-comparison library's ordering (§4.1 `compare`):
numeric segments compare numerically and rank below alphanumeric segments,
alphanumeric segments compare lexicographically.
-/
def segKey (seg : List Char) : Bool ×ₗ (Nat ×ₗ String) :=
  if isdigitStr seg then toLex (false, toLex (digitsToNat seg, ""))
  else toLex (true, toLex (0, String.mk seg))

/--
Modelled from the spec: the comparison key of an optional prerelease label
(§4.1 `compare`): a version without a prerelease ranks strictly above the
same base version with one, and labels compare segment by segment
(split on `.`), a shorter label that is a prefix ranking below.
-/
def preKey : Option (List Char) → Bool ×ₗ List (Bool ×ₗ (Nat ×ₗ String))
  | none => toLex (true, [])
  | some l => toLex (false, (splitDot l).map segKey)

/-- The lexicographic key type ordering whole versions per §4.1. -/
abbrev VKey := Nat ×ₗ (Nat ×ₗ (Nat ×ₗ (Bool ×ₗ List (Bool ×ₗ (Nat ×ₗ String)))))

/--
Modelled from the spec: the sort key `packaging_version.parse(t.lstrip('v'))`
of `sort_versions_desc` — the external version-comparison library is
replaced, as §4.1/§9 direct, by the self-contained total ordering on
(major, minor, patch, prerelease): numeric on the triple first, then the
prerelease ordering of `preKey`.  A string the version pattern does not
match is given the smallest numeric key.
-/
def sortKey (t : String) : VKey :=
  match matchSemver (t.data.dropWhile (· == 'v')) with
  | some (m, n, p, pre) => toLex (m, toLex (n, toLex (p, preKey pre)))
  | none => toLex (0, toLex (0, toLex (0, toLex (false, []))))

/--
`sort_versions_desc(tags)`: Python `sorted(tags, key=key, reverse=True)` —
a stable sort, highest key first (ties keep their original order).
-/
def sort_versions_desc (tags : List String) : List String :=
  tags.mergeSort (fun a b => decide (sortKey b ≤ sortKey a))

/--
`determine_new_tag(existing_tags, default_bump, prerelease_identifier,
prerelease_flag)`: the literal `v1.0.0` when the list is empty, otherwise
increment the head of the descending sort.  `sorted_tags[0]` on an empty
list would raise `IndexError`, embedded as the corresponding error.
-/
def determine_new_tag (existing_tags : List String) (default_bump : String)
    (prerelease_identifier : String) (prerelease_flag : Bool) :
    Except String String :=
  if existing_tags.isEmpty then Except.ok "v1.0.0"
  else
    match (sort_versions_desc existing_tags).head? with
    | none => Except.error "list index out of range"
    | some latest =>
      increment_semver latest default_bump prerelease_flag prerelease_identifier

/-- `new_tag[1:] if new_tag.startswith('v') else new_tag` (line 144). -/
def stripLeadingV (s : String) : String :=
  if s.data.head? = some 'v' then String.mk s.data.tail else s

/--
The pure tag-resolution part of `main` (lines 135-148), over inputs that
`main` has already read and `.strip()`-ed from the environment: choose the
base tag (the override verbatim when non-empty, else `determine_new_tag`
over the coerced tag list that `fetch_all_repo_tags` returns), append the
suffix when non-empty and different from the literal `"prerelease"`, derive
the version value from the (possibly suffixed) tag by dropping one leading
`v`, then prepend the prefix, when non-empty, to both.  The 100-entry cap
of `fetch_all_repo_tags` is a collaborator-level cutoff on the list length
(§6) and is not modelled; `raw_tags` stands for the tag names the lister
returns, coerced and filtered exactly as in `fetch_all_repo_tags`.
-/
def resolve (user_tag : String) (raw_tags : List String) (default_bump : String)
    (prerelease_identifier : String) (prerelease_flag : Bool)
    (tag_suffix tag_prefix : String) : Except String (String × String) :=
  match
    if user_tag ≠ "" then Except.ok user_tag
    else
      determine_new_tag (raw_tags.filterMap coerce_tag_name) default_bump
        prerelease_identifier prerelease_flag
  with
  | Except.error e => Except.error e
  | Except.ok base =>
    let withSuffix :=
      if tag_suffix ≠ "" ∧ tag_suffix ≠ "prerelease" then base ++ "-" ++ tag_suffix
      else base
    let version_value := stripLeadingV withSuffix
    if tag_prefix ≠ "" then
      Except.ok ( tag_prefix ++ "-" ++ withSuffix, tag_prefix ++ "-" ++ version_value)
    else
      Except.ok (withSuffix, version_value)

/-! ## Lemmas about decimal printing and character classes -/

theorem digitChar_isDigit (r : Nat) : (digitChar r).isDigit = true := by
  unfold digitChar
  split <;> decide

theorem digitChar_val : ∀ r < 10, (digitChar r).toNat - 48 = r := by decide

theorem digitsToNat_append_singleton (xs : List Char) (c : Char) :
    digitsToNat (xs ++ [c]) = 10 * digitsToNat xs + (c.toNat - 48) := by
  simp [digitsToNat, List.foldl_append]

theorem natToDigitsAux_acc : ∀ (fuel n : Nat) (acc : List Char),
    natToDigitsAux fuel n acc = natToDigitsAux fuel n [] ++ acc := by
  intro fuel
  induction fuel with
  | zero => intro n acc; simp [natToDigitsAux]
  | succ fuel ih =>
    intro n acc
    by_cases h0 : n = 0
    · simp [natToDigitsAux, h0]
    · simp only [natToDigitsAux, h0, if_false]
      rw [ih (n / 10) (digitChar (n % 10) :: acc), ih (n / 10) [digitChar (n % 10)]]
      simp

theorem digitsToNat_natToDigitsAux : ∀ (fuel n : Nat), n ≤ fuel →
    digitsToNat (natToDigitsAux fuel n []) = n := by
  intro fuel
  induction fuel with
  | zero =>
    intro n h
    have : n = 0 := by omega
    subst this
    simp [natToDigitsAux, digitsToNat]
  | succ fuel ih =>
    intro n h
    by_cases h0 : n = 0
    · subst h0; simp [natToDigitsAux, digitsToNat]
    · have hstep : natToDigitsAux (fuel + 1) n [] =
          natToDigitsAux fuel (n / 10) [digitChar (n % 10)] := by
        simp [natToDigitsAux, h0]
      have hdiv : n / 10 < n := Nat.div_lt_self (Nat.pos_of_ne_zero h0) (by omega)
      rw [hstep, natToDigitsAux_acc, digitsToNat_append_singleton,
        ih (n / 10) (by omega), digitChar_val (n % 10) (Nat.mod_lt _ (by omega))]
      omega

theorem digitsToNat_natToDigits (n : Nat) : digitsToNat (natToDigits n) = n := by
  by_cases h0 : n = 0
  · subst h0; simp [natToDigits, digitsToNat]
  · simp only [natToDigits, h0, if_false]
    exact digitsToNat_natToDigitsAux n n (Nat.le_refl n)

theorem natToDigits_ne_nil (n : Nat) : natToDigits n ≠ [] := by
  by_cases h0 : n = 0
  · subst h0; simp [natToDigits]
  · simp only [natToDigits, h0, if_false]
    match n, h0 with
    | n + 1, _ =>
      simp only [natToDigitsAux]
      rw [natToDigitsAux_acc]
      simp

theorem mem_natToDigitsAux_digit : ∀ (fuel n : Nat) (c : Char),
    c ∈ natToDigitsAux fuel n [] → c.isDigit = true := by
  intro fuel
  induction fuel with
  | zero => intro n c hc; simp [natToDigitsAux] at hc
  | succ fuel ih =>
    intro n c hc
    by_cases h0 : n = 0
    · simp [natToDigitsAux, h0] at hc
    · rw [show natToDigitsAux (fuel + 1) n [] =
          natToDigitsAux fuel (n / 10) [digitChar (n % 10)] from by
            simp [natToDigitsAux, h0],
        natToDigitsAux_acc] at hc
      rcases List.mem_append.1 hc with h | h
      · exact ih _ _ h
      · simp at h; subst h; exact digitChar_isDigit _

theorem mem_natToDigits_digit {n : Nat} {c : Char}
    (hc : c ∈ natToDigits n) : c.isDigit = true := by
  by_cases h0 : n = 0
  · subst h0; simp [natToDigits] at hc; subst hc; decide
  · simp only [natToDigits, h0, if_false] at hc
    exact mem_natToDigitsAux_digit n n c hc

theorem ws_cases {c : Char} (h : c.isWhitespace = true) :
    c = ' ' ∨ c = '\t' ∨ c = '\r' ∨ c = '\n' := by
  have := h
  simp [Char.isWhitespace] at this
  tauto

theorem isPreChar_not_ws {c : Char} (h : isPreChar c = true) :
    c.isWhitespace = false := by
  rcases Bool.eq_false_or_eq_true c.isWhitespace with hw | hw
  · rcases ws_cases hw with rfl | rfl | rfl | rfl <;> exact absurd h (by decide)
  · exact hw

theorem isDigit_isPreChar {c : Char} (h : c.isDigit = true) : isPreChar c = true := by
  simp [isPreChar, Char.isAlphanum, h]

theorem isDigit_not_ws {c : Char} (h : c.isDigit = true) : c.isWhitespace = false :=
  isPreChar_not_ws (isDigit_isPreChar h)

theorem isDigit_ne {c : Char} (h : c.isDigit = true) {d : Char}
    (hd : d.isDigit = false) : c ≠ d := by
  intro e; subst e; rw [h] at hd; exact absurd hd (by simp)

theorem isDigit_beq_v {c : Char} (h : c.isDigit = true) : (c == 'v') = false :=
  beq_eq_false_iff_ne.mpr (isDigit_ne h (by decide))

/-! ## Lemmas about `pstrip` -/

theorem dropWhile_all_false {α : Type} {p : α → Bool} {l : List α}
    (h : ∀ c ∈ l, p c = false) : l.dropWhile p = l := by
  match l with
  | [] => rfl
  | c :: r => exact List.dropWhile_cons_of_neg (by simp [h c (by simp)])

theorem pstrip_decompose (l : List Char) :
    pstrip l = List.rdropWhile Char.isWhitespace (l.dropWhile Char.isWhitespace) := by
  rfl

theorem pstrip_eq_self {l : List Char} (h : ∀ c ∈ l, c.isWhitespace = false) :
    pstrip l = l := by
  unfold pstrip
  rw [dropWhile_all_false h,
    dropWhile_all_false (fun c hc => h c (List.mem_reverse.mp hc)),
    List.reverse_reverse]

theorem rdropWhile_eq_self_of_all {l : List Char}
    (h : ∀ c ∈ l, c.isWhitespace = false) :
    List.rdropWhile Char.isWhitespace l = l := by
  unfold List.rdropWhile
  rw [dropWhile_all_false (fun c hc => h c (List.mem_reverse.mp hc)),
    List.reverse_reverse]

theorem pstrip_append {a b : List Char} (ha : a ≠ [])
    (h : ∀ x ∈ a, x.isWhitespace = false) :
    pstrip (a ++ b) = a ++ List.rdropWhile Char.isWhitespace b := by
  unfold pstrip List.rdropWhile
  have h1 : (a ++ b).dropWhile Char.isWhitespace = a ++ b := by
    match a, ha with
    | c :: a', _ =>
      rw [List.cons_append]
      exact List.dropWhile_cons_of_neg (by simp [h c (by simp)])
  rw [h1, List.reverse_append, List.dropWhile_append]
  by_cases he : (b.reverse.dropWhile Char.isWhitespace).isEmpty = true
  · rw [if_pos he]
    rw [dropWhile_all_false (fun c hc => h c (List.mem_reverse.mp hc)),
      List.reverse_reverse]
    have hb : b.reverse.dropWhile Char.isWhitespace = [] := by simpa using he
    rw [hb]
    simp
  · rw [if_neg he, List.reverse_append, List.reverse_reverse]

theorem rdropWhile_head? {b : List Char}
    (hne : List.rdropWhile Char.isWhitespace b ≠ []) :
    (List.rdropWhile Char.isWhitespace b).head? = b.head? := by
  obtain ⟨t, ht⟩ := List.rdropWhile_prefix (p := Char.isWhitespace) (l := b)
  obtain ⟨c, r, hcr⟩ := List.exists_cons_of_ne_nil hne
  rw [hcr] at ht ⊢
  rw [← ht]
  simp

theorem rdropWhile_ne_nil_of_head {b : List Char} {c : Char}
    (hh : b.head? = some c) (hc : c.isWhitespace = false) :
    List.rdropWhile Char.isWhitespace b ≠ [] := by
  intro h
  have hall := List.rdropWhile_eq_nil_iff.mp h
  obtain ⟨c', r, rfl⟩ :=
    List.exists_cons_of_ne_nil (l := b) (by intro hb; subst hb; simp at hh)
  have hcc : c' = c := by simpa using hh
  have h1 := hall c' (by simp)
  rw [hcc] at h1
  rw [h1] at hc
  simp at hc

/-! ## Lemmas about the regex embedding -/

theorem takeWhile_all_true {α : Type} {p : α → Bool} :
    ∀ {l : List α}, (∀ c ∈ l, p c = true) → l.takeWhile p = l
  | [], _ => rfl
  | c :: r, h => by
    rw [List.takeWhile_cons_of_pos (h c (by simp))]
    rw [takeWhile_all_true (fun x hx => h x (by simp [hx]))]

theorem natToDigits_isEmpty (n : Nat) : (natToDigits n).isEmpty = false := by
  cases h : natToDigits n with
  | nil => exact absurd h (natToDigits_ne_nil n)
  | cons a l => rfl

theorem matchPre_some {r P : List Char} (h : matchPre r = some P) :
    P ≠ [] ∧ ∀ c ∈ P, isPreChar c = true := by
  match r with
  | [] => simp [matchPre] at h
  | c :: r' =>
    simp only [matchPre] at h
    by_cases hsep : c = '-' ∨ c = '.'
    · rw [if_pos hsep] at h
      by_cases hp : (r'.takeWhile isPreChar).isEmpty = true
      · rw [if_pos hp] at h
        have : [c] = P := by simpa using h
        subst this
        refine ⟨by simp, ?_⟩
        intro x hx
        have : x = c := by simpa using hx
        subst this
        rcases hsep with rfl | rfl <;> decide
      · rw [if_neg hp] at h
        have : r'.takeWhile isPreChar = P := by simpa using h
        subst this
        refine ⟨by simpa using hp, ?_⟩
        intro x hx
        exact List.mem_takeWhile_imp hx
    · rw [if_neg hsep] at h
      by_cases hp : ((c :: r').takeWhile isPreChar).isEmpty = true
      · rw [if_pos hp] at h
        exact absurd h (by simp)
      · rw [if_neg hp] at h
        have : (c :: r').takeWhile isPreChar = P := by simpa using h
        subst this
        refine ⟨by simpa using hp, ?_⟩
        intro x hx
        exact List.mem_takeWhile_imp hx

theorem matchPre_none {r : List Char}
    (h : ∀ c, r.head? = some c → isPreChar c = false) : matchPre r = none := by
  match r with
  | [] => rfl
  | c :: r' =>
    have hc := h c rfl
    have hsep : ¬(c = '-' ∨ c = '.') := by
      rintro (rfl | rfl) <;> simp [isPreChar] at hc
    have ht : (c :: r').takeWhile isPreChar = [] :=
      List.takeWhile_cons_of_neg (by simp [hc])
    simp [matchPre, hsep, ht]

theorem matchPre_all {P : List Char} (hne : P ≠ [])
    (hall : ∀ c ∈ P, isPreChar c = true)
    (hsep : ∀ c, P.head? = some c → c ≠ '-' ∧ c ≠ '.') :
    matchPre P = some P := by
  obtain ⟨c, r, rfl⟩ := List.exists_cons_of_ne_nil hne
  have hs := hsep c rfl
  have ht : (c :: r).takeWhile isPreChar = c :: r := takeWhile_all_true hall
  simp only [matchPre]
  rw [if_neg (by tauto), ht]
  simp

theorem matchSemver_canon (m n p : Nat) (rest : List Char)
    (hrest : ∀ c, rest.head? = some c → c.isDigit = false) :
    matchSemver
      (natToDigits m ++ ('.' :: (natToDigits n ++ ('.' :: (natToDigits p ++ rest)))))
      = some (m, n, p, matchPre rest) := by
  have hA : ∀ c ∈ natToDigits m, Char.isDigit c = true :=
    fun _ hc => mem_natToDigits_digit hc
  have hB : ∀ c ∈ natToDigits n, Char.isDigit c = true :=
    fun _ hc => mem_natToDigits_digit hc
  have hC : ∀ c ∈ natToDigits p, Char.isDigit c = true :=
    fun _ hc => mem_natToDigits_digit hc
  have hrt : rest.takeWhile Char.isDigit = [] := by
    match rest with
    | [] => rfl
    | c :: r => exact List.takeWhile_cons_of_neg (by simp [hrest c rfl])
  have hrd : rest.dropWhile Char.isDigit = rest := by
    match rest with
    | [] => rfl
    | c :: r => exact List.dropWhile_cons_of_neg (by simp [hrest c rfl])
  simp only [matchSemver]
  rw [List.takeWhile_append_of_pos hA, List.dropWhile_append_of_pos hA,
    List.takeWhile_cons_of_neg (by decide), List.dropWhile_cons_of_neg (by decide),
    List.append_nil]
  simp only [List.head?_cons, List.tail_cons, natToDigits_isEmpty, Bool.false_eq_true,
    if_false, ne_eq, Option.some.injEq, not_true_eq_false]
  rw [List.takeWhile_append_of_pos hB, List.dropWhile_append_of_pos hB,
    List.takeWhile_cons_of_neg (by decide), List.dropWhile_cons_of_neg (by decide),
    List.append_nil]
  simp only [List.head?_cons, List.tail_cons, natToDigits_isEmpty, Bool.false_eq_true,
    if_false, ne_eq, Option.some.injEq, not_true_eq_false]
  rw [List.takeWhile_append_of_pos hC, List.dropWhile_append_of_pos hC, hrt, hrd,
    List.append_nil]
  simp only [natToDigits_isEmpty, Bool.false_eq_true, if_false,
    digitsToNat_natToDigits]

theorem matchSemver_head {l : List Char} {q : Nat × Nat × Nat × Option (List Char)}
    (h : matchSemver l = some q) : ∃ c r, l = c :: r ∧ c.isDigit = true := by
  match l with
  | [] => simp [matchSemver] at h
  | c :: r =>
    refine ⟨c, r, rfl, ?_⟩
    by_contra hc
    have hcf : c.isDigit = false := by simpa using hc
    have ht : (c :: r).takeWhile Char.isDigit = [] :=
      List.takeWhile_cons_of_neg (by simp [hcf])
    simp [matchSemver, ht] at h

theorem matchSemver_pre_spec {l : List Char} {m n p : Nat}
    {pre : Option (List Char)} (h : matchSemver l = some (m, n, p, pre)) :
    ∀ P, pre = some P → P ≠ [] ∧ ∀ c ∈ P, isPreChar c = true := by
  intro P hP
  subst hP
  simp only [matchSemver] at h
  split at h
  · exact absurd h (by simp)
  · split at h
    · exact absurd h (by simp)
    · split at h
      · exact absurd h (by simp)
      · split at h
        · exact absurd h (by simp)
        · split at h
          · exact absurd h (by simp)
          · have h4 := (by simpa using h : _ ∧ _ ∧ _ ∧ _).2.2.2
            exact matchPre_some h4

/-! ## Lemmas about `renderTag` and `coerce_tag_name` -/

theorem renderTag_data_none (m n p : Nat) :
    (renderTag m n p none).data =
      'v' :: (natToDigits m ++ ('.' :: (natToDigits n ++ ('.' :: natToDigits p)))) := by
  simp [renderTag, natToString]

theorem renderTag_data_some (m n p : Nat) {l : List Char} (hl : l ≠ []) :
    (renderTag m n p (some l)).data =
      'v' :: (natToDigits m ++
        ('.' :: (natToDigits n ++ ('.' :: (natToDigits p ++ '-' :: l))))) := by
  have : l.isEmpty = false := by
    cases l with
    | nil => exact absurd rfl hl
    | cons a t => rfl
  simp [renderTag, natToString, this]

theorem renderTag_chars (m n p : Nat) (pre : Option (List Char))
    (hpre : ∀ P, pre = some P → P ≠ [] ∧ ∀ c ∈ P, isPreChar c = true) :
    ∀ c ∈ (renderTag m n p pre).data, c.isWhitespace = false := by
  cases pre with
  | none =>
    rw [renderTag_data_none]
    intro c hc
    simp only [List.mem_cons, List.mem_append] at hc
    rcases hc with rfl | hc | rfl | hc | rfl | hc
    · decide
    · exact isDigit_not_ws (mem_natToDigits_digit hc)
    · decide
    · exact isDigit_not_ws (mem_natToDigits_digit hc)
    · decide
    · exact isDigit_not_ws (mem_natToDigits_digit hc)
  | some P =>
    obtain ⟨hne, hall⟩ := hpre P rfl
    rw [renderTag_data_some m n p hne]
    intro c hc
    simp only [List.mem_cons, List.mem_append] at hc
    rcases hc with rfl | hc | rfl | hc | rfl | hc | rfl | hc
    · decide
    · exact isDigit_not_ws (mem_natToDigits_digit hc)
    · decide
    · exact isDigit_not_ws (mem_natToDigits_digit hc)
    · decide
    · exact isDigit_not_ws (mem_natToDigits_digit hc)
    · decide
    · exact isPreChar_not_ws (hall c hc)

theorem take10_ne_refs (x : List Char) : ('v' :: x).take 10 ≠ "refs/tags/".data := by
  intro h
  rw [show ("refs/tags/".data) = 'r' :: "efs/tags/".data from rfl] at h
  simp [List.take_succ_cons] at h

theorem dropv_digits_append (m : Nat) (x : List Char) :
    (natToDigits m ++ x).dropWhile (· == 'v') = natToDigits m ++ x := by
  obtain ⟨c, r, hcr⟩ := List.exists_cons_of_ne_nil (natToDigits_ne_nil m)
  have hd : c.isDigit = true := mem_natToDigits_digit (by rw [hcr]; simp)
  rw [hcr, List.cons_append]
  exact List.dropWhile_cons_of_neg (by simp [isDigit_beq_v hd])

theorem matchPre_dash (P : List Char) (hne : P ≠ [])
    (hall : ∀ c ∈ P, isPreChar c = true) : matchPre ('-' :: P) = some P := by
  have hPe : P.isEmpty = false := by
    cases P with
    | nil => exact absurd rfl hne
    | cons a t => rfl
  simp [matchPre, takeWhile_all_true hall, hPe]

theorem renderTag_data (m n p : Nat) (pre : Option (List Char))
    (hpre : ∀ P, pre = some P → P ≠ []) :
    (renderTag m n p pre).data =
      'v' :: (natToDigits m ++ ('.' :: (natToDigits n ++
        ('.' :: (natToDigits p ++ preRest pre))))) := by
  cases pre with
  | none => rw [renderTag_data_none]; simp [preRest]
  | some P => rw [renderTag_data_some m n p (hpre P rfl)]; rfl

theorem matchPre_preRest (pre : Option (List Char))
    (hpre : ∀ P, pre = some P → P ≠ [] ∧ ∀ c ∈ P, isPreChar c = true) :
    matchPre (preRest pre) = pre := by
  cases pre with
  | none => rfl
  | some P => exact matchPre_dash P (hpre P rfl).1 (hpre P rfl).2

theorem preRest_head_not_digit (pre : Option (List Char)) :
    ∀ c, (preRest pre).head? = some c → c.isDigit = false := by
  cases pre with
  | none => intro c hc; simp [preRest] at hc
  | some P =>
    intro c hc
    have : c = '-' := by simpa [preRest] using hc.symm
    subst this
    decide

theorem coerce_renderTag (m n p : Nat) (pre : Option (List Char))
    (hpre : ∀ P, pre = some P → P ≠ [] ∧ ∀ c ∈ P, isPreChar c = true) :
    coerce_tag_name (renderTag m n p pre) = some (renderTag m n p pre) := by
  have hdata := renderTag_data m n p pre (fun P hP => (hpre P hP).1)
  have hstrip : pstrip (renderTag m n p pre).data = (renderTag m n p pre).data :=
    pstrip_eq_self (renderTag_chars m n p pre hpre)
  have hdrop : ∀ x : List Char, ('v' :: x).dropWhile (· == 'v') =
      x.dropWhile (· == 'v') := fun x => List.dropWhile_cons_of_pos (by simp)
  simp only [coerce_tag_name]
  rw [hstrip, hdata, if_neg (take10_ne_refs _), hdrop, dropv_digits_append,
    matchSemver_canon m n p (preRest pre) (preRest_head_not_digit pre),
    matchPre_preRest pre hpre]

theorem coerce_some_shape {tag t : String} (h : coerce_tag_name tag = some t) :
    ∃ m n p pre, (∀ P, pre = some P → P ≠ [] ∧ ∀ c ∈ P, isPreChar c = true) ∧
      t = renderTag m n p pre := by
  simp only [coerce_tag_name] at h
  split at h
  · exact absurd h (by simp)
  · next m n p pre heq =>
    exact ⟨m, n, p, pre, fun P hP => matchSemver_pre_spec heq P hP,
      by simpa using h.symm⟩

/-! ## Lemmas about `containsSeq`, `splitDot`, `joinDot` and `bumpPre` -/

theorem leadsWith_iff : ∀ {x y : List Char}, leadsWith x y = true ↔ x <+: y
  | [], y => by simp [leadsWith]
  | a :: xs, [] => by simp [leadsWith]
  | a :: xs, b :: ys => by
    rw [List.cons_prefix_cons, ← leadsWith_iff (x := xs) (y := ys)]
    simp [leadsWith, Bool.and_eq_true, beq_iff_eq]

theorem containsSeq_iff : ∀ {x y : List Char}, containsSeq x y = true ↔ x <:+: y
  | x, [] => by
    rw [show containsSeq x [] = leadsWith x [] from rfl, leadsWith_iff]
    constructor
    · intro h; exact h.isInfix
    · intro h
      have hx : x = [] := List.eq_nil_of_infix_nil h
      subst hx
      exact List.nil_prefix
  | x, c :: r => by
    rw [show containsSeq x (c :: r) = (leadsWith x (c :: r) || containsSeq x r)
        from rfl]
    rw [List.infix_cons_iff, Bool.or_eq_true, leadsWith_iff,
      containsSeq_iff (x := x) (y := r)]

theorem splitDot_ne_nil (l : List Char) : splitDot l ≠ [] := by
  match l with
  | [] => simp [splitDot]
  | c :: r =>
    simp only [splitDot]
    by_cases hc : c = '.'
    · rw [if_pos hc]; simp
    · rw [if_neg hc]
      cases splitDot r <;> simp

theorem joinDot_append_ne_nil : ∀ (parts : List (List Char)) (z : List Char),
    z ≠ [] → joinDot (parts ++ [z]) ≠ []
  | [], z, hz => by simpa [joinDot] using hz
  | a :: parts, z, hz => by
    have : parts ++ [z] ≠ [] := by simp
    obtain ⟨y, t, hyt⟩ := List.exists_cons_of_ne_nil this
    rw [List.cons_append, hyt]
    simp [joinDot]

theorem bumpPre_ne_nil (l : List Char) : bumpPre l ≠ [] := by
  simp only [bumpPre]
  split
  · exact joinDot_append_ne_nil _ _ (natToDigits_ne_nil _)
  · exact joinDot_append_ne_nil _ _ (by simp)

/-! ## Lemmas about stripping leading `v` characters -/

theorem dropv_replicate (k : Nat) (x : List Char) :
    (List.replicate k 'v' ++ x).dropWhile (· == 'v') = x.dropWhile (· == 'v') := by
  induction k with
  | zero => rfl
  | succ k ih =>
    rw [List.replicate_succ, List.cons_append, List.dropWhile_cons_of_pos (by simp)]
    exact ih

theorem data_mk (l : List Char) : (String.mk l).data = l := rfl

theorem take10_ne_refs_head {x : List Char} {c : Char} (hh : x.head? = some c)
    (hc : c ≠ 'r') : x.take 10 ≠ "refs/tags/".data := by
  intro h
  obtain ⟨d, r, rfl⟩ :=
    List.exists_cons_of_ne_nil (l := x) (by intro hx; subst hx; simp at hh)
  have hdc : d = c := by simpa using hh
  subst hdc
  rw [show ("refs/tags/".data) = 'r' :: "efs/tags/".data from rfl] at h
  simp [List.take_succ_cons] at h
  exact hc h.1

theorem head?_digits_append (m : Nat) (x : List Char) :
    ∃ c, (natToDigits m ++ x).head? = some c ∧ c.isDigit = true := by
  obtain ⟨c, r, hcr⟩ := List.exists_cons_of_ne_nil (natToDigits_ne_nil m)
  refine ⟨c, ?_, mem_natToDigits_digit (by rw [hcr]; simp)⟩
  rw [hcr, List.cons_append]
  rfl

/-! ## Claim theorems -/

/--
C7: `normalize` (source: `coerce_tag_name`) is idempotent — for every raw
string on which it succeeds, applying it to its output yields that same
output.
-/
theorem coerce_tag_name_idempotent (raw t : String)
    (h : coerce_tag_name raw = some t) : coerce_tag_name t = some t := by
  obtain ⟨m, n, p, pre, hpre, rfl⟩ := coerce_some_shape h
  exact coerce_renderTag m n p pre hpre

/-- Witness for C7: idempotence applied at the concrete raw tag `refs/tags/1.2.3-rc`. -/
theorem coerce_tag_name_idempotent_witness :
    coerce_tag_name "v1.2.3-rc" = some "v1.2.3-rc" :=
  coerce_tag_name_idempotent "refs/tags/1.2.3-rc" "v1.2.3-rc" (by decide)

/--
C8: for every bump rule outside {major, minor, patch, prerelease},
`increment_semver` performs exactly a patch bump — patch incremented by one,
major and minor unchanged, prerelease cleared — and succeeds rather than
failing.
-/
theorem increment_fallback_patch (cur bump i : String) (f : Bool)
    (m n p : Nat) (pre : Option (List Char))
    (h1 : bump ≠ "major") (h2 : bump ≠ "minor") (h3 : bump ≠ "patch")
    (h4 : bump ≠ "prerelease")
    (h : matchSemver (cur.data.dropWhile (· == 'v')) = some (m, n, p, pre)) :
    increment_semver cur bump f i = Except.ok (renderTag m n (p + 1) none) := by
  simp only [increment_semver]
  split
  · next heq => rw [h] at heq; exact absurd heq (by simp)
  · next m' n' p' pre' heq =>
    rw [h] at heq
    obtain ⟨rfl, rfl, rfl, rfl⟩ : m = m' ∧ n = n' ∧ p = p' ∧ pre = pre' := by
      simpa using heq
    rw [if_neg h1, if_neg h2, if_neg h3, if_neg h4]

/-- Witness for C8: the unknown rule `foo` on `v1.2.3` yields `v1.2.4`. -/
theorem increment_fallback_patch_witness :
    increment_semver "v1.2.3" "foo" true "beta" =
      Except.ok (renderTag 1 2 (3 + 1) none) :=
  increment_fallback_patch "v1.2.3" "foo" "beta" true 1 2 3 none
    (by decide) (by decide) (by decide) (by decide) (by rfl)

/--
C10: `coerce_tag_name` and `increment_semver` strip every leading `v`
character, not just one: prepending any number of `v` characters to a
string that matches the version pattern leaves both results unchanged.
-/
theorem strip_all_leading_v (k : Nat) (rest : List Char)
    (q : Nat × Nat × Nat × Option (List Char)) (bump i : String) (f : Bool)
    (h : matchSemver rest = some q) :
    coerce_tag_name (String.mk (List.replicate k 'v' ++ rest)) =
      coerce_tag_name (String.mk rest) ∧
    increment_semver (String.mk (List.replicate k 'v' ++ rest)) bump f i =
      increment_semver (String.mk rest) bump f i := by
  obtain ⟨c, r, rfl, hd⟩ := matchSemver_head h
  constructor
  · cases k with
    | zero => rfl
    | succ k =>
      have hR : pstrip (c :: r) = List.rdropWhile Char.isWhitespace (c :: r) := by
        unfold pstrip List.rdropWhile
        rw [List.dropWhile_cons_of_neg (by simp [isDigit_not_ws hd])]
      have hRne : List.rdropWhile Char.isWhitespace (c :: r) ≠ [] :=
        rdropWhile_ne_nil_of_head rfl (isDigit_not_ws hd)
      have hRh : (List.rdropWhile Char.isWhitespace (c :: r)).head? = some c :=
        (rdropWhile_head? hRne).trans rfl
      obtain ⟨c', R', hR'⟩ := List.exists_cons_of_ne_nil hRne
      have hcc : c' = c := by rw [hR'] at hRh; simpa using hRh
      rw [hcc] at hR'
      have hL : pstrip (List.replicate (k + 1) 'v' ++ (c :: r)) =
          List.replicate (k + 1) 'v' ++ List.rdropWhile Char.isWhitespace (c :: r) :=
        pstrip_append (by simp) (by
          intro x hx
          have : x = 'v' := List.eq_of_mem_replicate hx
          subst this; decide)
      simp only [coerce_tag_name, data_mk]
      rw [hL, hR]
      rw [if_neg (by
        rw [List.replicate_succ, List.cons_append]
        exact take10_ne_refs _)]
      rw [if_neg (take10_ne_refs_head hRh (isDigit_ne hd (by decide)))]
      rw [dropv_replicate, hR']
  · cases k with
    | zero => rfl
    | succ k =>
      simp only [increment_semver, data_mk]
      rw [dropv_replicate,
        List.dropWhile_cons_of_neg (by simp [isDigit_beq_v hd]), h]

/-- Witness for C10 at `vvv1.2.3` against `1.2.3`. -/
theorem strip_all_leading_v_witness :
    coerce_tag_name (String.mk (List.replicate 3 'v' ++ "1.2.3".data)) =
      coerce_tag_name (String.mk "1.2.3".data) ∧
    increment_semver (String.mk (List.replicate 3 'v' ++ "1.2.3".data))
        "patch" true "beta" =
      increment_semver (String.mk "1.2.3".data) "patch" true "beta" :=
  strip_all_leading_v 3 "1.2.3".data (1, 2, 3, none) "patch" "beta" true (by rfl)

/--
C9: normalization only requires the (prefix-stripped) input to begin with
the version pattern.  First conjunct: a tail whose first character lies
outside `[0-9A-Za-z.-]` is silently dropped, the match succeeding with the
bare version.  Second conjunct: an identifier run directly after the patch
number, with no `-` or `.` separator, is captured as the prerelease.  The
last two conjuncts are the claim's concrete instances.
-/
theorem coerce_partial_match :
    (∀ (m n p : Nat) (j : List Char),
      (∀ c, j.head? = some c → isPreChar c = false) →
      coerce_tag_name (String.mk (natToDigits m ++ ('.' :: (natToDigits n ++
        ('.' :: (natToDigits p ++ j)))))) = some (renderTag m n p none)) ∧
    (∀ (m n p : Nat) (P : List Char), P ≠ [] →
      (∀ c ∈ P, isPreChar c = true) →
      (∀ c, P.head? = some c → c.isDigit = false ∧ c ≠ '-' ∧ c ≠ '.') →
      coerce_tag_name (String.mk (natToDigits m ++ ('.' :: (natToDigits n ++
        ('.' :: (natToDigits p ++ P)))))) = some (renderTag m n p (some P))) ∧
    coerce_tag_name "v1.2.3 extra" = some "v1.2.3" ∧
    coerce_tag_name "1.2.3rc1" = some "v1.2.3-rc1" := by
  refine ⟨?_, ?_, by decide, by decide⟩
  · intro m n p j hj
    have hws : ∀ x ∈ (natToDigits m ++ ('.' :: (natToDigits n ++
        ('.' :: natToDigits p)))), x.isWhitespace = false := by
      intro x hx
      simp only [List.mem_append, List.mem_cons] at hx
      rcases hx with hx | rfl | hx | rfl | hx
      · exact isDigit_not_ws (mem_natToDigits_digit hx)
      · decide
      · exact isDigit_not_ws (mem_natToDigits_digit hx)
      · decide
      · exact isDigit_not_ws (mem_natToDigits_digit hx)
    have hane : (natToDigits m ++ ('.' :: (natToDigits n ++
        ('.' :: natToDigits p)))) ≠ [] := by simp
    have hps : pstrip (natToDigits m ++ ('.' :: (natToDigits n ++
        ('.' :: (natToDigits p ++ j))))) =
        natToDigits m ++ ('.' :: (natToDigits n ++ ('.' :: (natToDigits p ++
          List.rdropWhile Char.isWhitespace j)))) := by
      have h1 := pstrip_append (a := natToDigits m ++ ('.' :: (natToDigits n ++
        ('.' :: natToDigits p)))) (b := j) hane hws
      simpa [List.append_assoc] using h1
    have hj' : ∀ c, (List.rdropWhile Char.isWhitespace j).head? = some c →
        isPreChar c = false := by
      intro c hc
      have hne : List.rdropWhile Char.isWhitespace j ≠ [] := by
        intro hnil; rw [hnil] at hc; simp at hc
      rw [rdropWhile_head? hne] at hc
      exact hj c hc
    have hmp : matchPre (List.rdropWhile Char.isWhitespace j) = none :=
      matchPre_none hj'
    obtain ⟨c0, hh0, hd0⟩ := head?_digits_append m ('.' :: (natToDigits n ++
      ('.' :: (natToDigits p ++ List.rdropWhile Char.isWhitespace j))))
    simp only [coerce_tag_name, data_mk]
    rw [hps, if_neg (take10_ne_refs_head hh0 (isDigit_ne hd0 (by decide))),
      dropv_digits_append,
      matchSemver_canon m n p (List.rdropWhile Char.isWhitespace j)
        (fun c hc => by
          have hpc := hj' c hc
          rcases Bool.eq_false_or_eq_true c.isDigit with hdt | hdf
          · rw [isDigit_isPreChar hdt] at hpc; exact absurd hpc (by simp)
          · exact hdf),
      hmp]
  · intro m n p P hPne hPall hPhead
    have hws : ∀ x ∈ (natToDigits m ++ ('.' :: (natToDigits n ++
        ('.' :: (natToDigits p ++ P))))), x.isWhitespace = false := by
      intro x hx
      simp only [List.mem_append, List.mem_cons] at hx
      rcases hx with hx | rfl | hx | rfl | hx | hx
      · exact isDigit_not_ws (mem_natToDigits_digit hx)
      · decide
      · exact isDigit_not_ws (mem_natToDigits_digit hx)
      · decide
      · exact isDigit_not_ws (mem_natToDigits_digit hx)
      · exact isPreChar_not_ws (hPall x hx)
    obtain ⟨c0, hh0, hd0⟩ := head?_digits_append m ('.' :: (natToDigits n ++
      ('.' :: (natToDigits p ++ P))))
    have hmp : matchPre P = some P :=
      matchPre_all hPne hPall (fun c hc => ⟨(hPhead c hc).2.1, (hPhead c hc).2.2⟩)
    simp only [coerce_tag_name, data_mk]
    rw [pstrip_eq_self hws,
      if_neg (take10_ne_refs_head hh0 (isDigit_ne hd0 (by decide))),
      dropv_digits_append,
      matchSemver_canon m n p P (fun c hc => (hPhead c hc).1),
      hmp]

/-- Witness for C9: the general conjuncts at `1.2.3` with tail `" build"` and run `rc1`. -/
theorem coerce_partial_match_witness :
    coerce_tag_name (String.mk (natToDigits 1 ++ ('.' :: (natToDigits 2 ++
      ('.' :: (natToDigits 3 ++ " build".data)))))) =
      some (renderTag 1 2 3 none) ∧
    coerce_tag_name (String.mk (natToDigits 1 ++ ('.' :: (natToDigits 2 ++
      ('.' :: (natToDigits 3 ++ "rc1".data)))))) =
      some (renderTag 1 2 3 (some "rc1".data)) :=
  ⟨coerce_partial_match.1 1 2 3 " build".data
    (by intro c hc; rw [show c = ' ' from by simpa using hc.symm]; decide),
   coerce_partial_match.2.1 1 2 3 "rc1".data (by decide) (by decide)
    (by intro c hc; rw [show c = 'r' from by simpa using hc.symm]; decide)⟩

/-- Every successful `increment_semver` output is a rendered version whose
prerelease label, when present, is non-empty. -/
theorem increment_ok_shape (cur bump : String) (f : Bool) (i t : String)
    (h : increment_semver cur bump f i = Except.ok t) :
    ∃ m n p pre, t = renderTag m n p pre ∧ ∀ P, pre = some P → P ≠ [] := by
  simp only [increment_semver] at h
  split at h
  · exact absurd h (by simp)
  · next m n p pre heq =>
    split at h
    · exact ⟨m + 1, 0, 0, none, by simpa using h.symm, by simp⟩
    · split at h
      · exact ⟨m, n + 1, 0, none, by simpa using h.symm, by simp⟩
      · split at h
        · exact ⟨m, n, p + 1, none, by simpa using h.symm, by simp⟩
        · split at h
          · split at h
            · next l =>
              split at h
              · exact ⟨m, n, p, some (bumpPre l), by simpa using h.symm,
                  fun P hP => (Option.some.inj hP) ▸ bumpPre_ne_nil l⟩
              · split at h
                · exact ⟨m, n, p, some (i.data ++ ['.', '1']),
                    by simpa using h.symm,
                    fun P hP => (Option.some.inj hP) ▸ (by simp)⟩
                · exact ⟨m, n, p + 1, none, by simpa using h.symm, by simp⟩
            · split at h
              · exact ⟨m, n, p, some (i.data ++ ['.', '1']),
                  by simpa using h.symm,
                  fun P hP => (Option.some.inj hP) ▸ (by simp)⟩
              · exact ⟨m, n, p + 1, none, by simpa using h.symm, by simp⟩
          · exact ⟨m, n, p + 1, none, by simpa using h.symm, by simp⟩

/--
C4 (amended): every Version the program produces — by normalization of a
raw tag or by a successful increment — has natural-number
major/minor/patch components and, when a prerelease label is present, that
label is a non-empty string.  (Unlike the claim, the label can carry
leading or trailing dots; see the counterexample theorem.)
-/
theorem produced_version_shape :
    (∀ raw t, coerce_tag_name raw = some t →
      ∃ m n p pre, t = renderTag m n p pre ∧ ∀ P, pre = some P → P ≠ []) ∧
    (∀ cur bump i t f, increment_semver cur bump f i = Except.ok t →
      ∃ m n p pre, t = renderTag m n p pre ∧ ∀ P, pre = some P → P ≠ []) := by
  constructor
  · intro raw t h
    obtain ⟨m, n, p, pre, hpre, rfl⟩ := coerce_some_shape h
    exact ⟨m, n, p, pre, rfl, fun P hP => (hpre P hP).1⟩
  · intro cur bump i t f h
    exact increment_ok_shape cur bump f i t h

/--
C4 (counterexample): the raw tag "1.2.3." normalizes successfully and the
produced Version carries the prerelease label ".", which both starts and
ends with a dot — refuting the claimed no-leading/trailing-dot invariant.
-/
theorem coerce_dot_label_cex :
    coerce_tag_name "1.2.3." = some (renderTag 1 2 3 (some ['.'])) ∧
    renderTag 1 2 3 (some ['.']) = "v1.2.3-." ∧
    ['.'].head? = some '.' ∧ ['.'].getLast? = some '.' :=
  ⟨by decide, by decide, rfl, rfl⟩

/-- Witness for C4 (amended) at a normalized tag and an incremented one. -/
theorem produced_version_shape_witness :
    (∃ m n p pre, ("v1.2.3-rc1" : String) = renderTag m n p pre ∧
      ∀ P, pre = some P → P ≠ []) ∧
    (∃ m n p pre, ("v1.2.4" : String) = renderTag m n p pre ∧
      ∀ P, pre = some P → P ≠ []) :=
  ⟨produced_version_shape.1 "1.2.3rc1" "v1.2.3-rc1" (by decide),
   produced_version_shape.2 "v1.2.3" "patch" "beta" "v1.2.4" true (by rfl)⟩

/--
C1 (counterexample): with base tag "v1.0.0" and suffix "rc", the code
appends the suffix to the tag before deriving the version value, so the
returned version is "1.0.0-rc", not "1.0.0" — the version string is
changed by the suffix, refuting the claim.
-/
theorem resolve_suffix_changes_version_cex :
    resolve "" [] "patch" "prerelease" true "rc" "" =
      Except.ok ("v1.0.0-rc", "1.0.0-rc") ∧
    ("1.0.0-rc" : String) ≠ "1.0.0" :=
  ⟨by rfl, by decide⟩

/--
C1 (amended): when a suffix is present and different from the literal
"prerelease", `-{suffix}` is appended to the base tag and the version
value is then derived from the suffixed tag, so both carry the suffix:
with no override, no existing tags and no prefix the result is tag
`v1.0.0-{suffix}` and version `1.0.0-{suffix}`, for every bump rule.
-/
theorem resolve_suffix_affects_both (bump i suffix : String) (f : Bool)
    (h1 : suffix ≠ "") (h2 : suffix ≠ "prerelease") :
    resolve "" [] bump i f suffix "" =
      Except.ok ("v1.0.0" ++ "-" ++ suffix, "1.0.0" ++ "-" ++ suffix) := by
  obtain ⟨sl⟩ := suffix
  show Except.ok
      ((if (String.mk sl) ≠ "" ∧ (String.mk sl) ≠ "prerelease"
        then "v1.0.0" ++ "-" ++ String.mk sl else "v1.0.0"),
       stripLeadingV (if (String.mk sl) ≠ "" ∧ (String.mk sl) ≠ "prerelease"
        then "v1.0.0" ++ "-" ++ String.mk sl else "v1.0.0")) =
    Except.ok ("v1.0.0" ++ "-" ++ String.mk sl, "1.0.0" ++ "-" ++ String.mk sl)
  rw [if_pos ⟨h1, h2⟩]
  rfl

/-- Witness for C1 (amended) at suffix "rc" and rule "patch". -/
theorem resolve_suffix_affects_both_witness :
    resolve "" [] "patch" "prerelease" true "rc" "" =
      Except.ok ("v1.0.0" ++ "-" ++ "rc", "1.0.0" ++ "-" ++ "rc") :=
  resolve_suffix_affects_both "patch" "prerelease" "rc" true
    (by decide) (by decide)

/--
C3 (counterexample): the override "garbage!!" does not match the version
pattern, yet `resolve` uses it verbatim and succeeds — no value error is
raised for a malformed override, refuting the claim.
-/
theorem resolve_invalid_override_cex :
    matchSemver "garbage!!".data = none ∧
    resolve "garbage!!" [] "patch" "prerelease" true "" "" =
      Except.ok ("garbage!!", "garbage!!") :=
  ⟨by decide, by rfl⟩

/--
C3 (amended): an override is used verbatim, with no validation: for every
non-empty override string — syntactically valid or not — `resolve`
succeeds and returns the override as the tag.  The invalid-version value
error exists only in `increment_semver` (reached only when no override is
given), which fails exactly when its target does not match the pattern.
-/
theorem resolve_override_verbatim (user_tag : String) (raws : List String)
    (bump i : String) (f : Bool) (h : user_tag ≠ "") :
    resolve user_tag raws bump i f "" "" =
      Except.ok (user_tag, stripLeadingV user_tag) ∧
    ∀ cur b fl j, matchSemver (cur.data.dropWhile (· == 'v')) = none →
      increment_semver cur b fl j =
        Except.error ("Invalid semantic version: " ++ cur) := by
  constructor
  · simp only [resolve]
    rw [if_pos h]
    rfl
  · intro cur b fl j hm
    simp only [increment_semver, hm]

/-- Witness for C3 (amended) at the override "v9.9.9". -/
theorem resolve_override_verbatim_witness :
    resolve "v9.9.9" ["v1.0.0"] "patch" "prerelease" true "" "" =
      Except.ok ("v9.9.9", stripLeadingV "v9.9.9") ∧
    ∀ cur b fl j, matchSemver (cur.data.dropWhile (· == 'v')) = none →
      increment_semver cur b fl j =
        Except.error ("Invalid semantic version: " ++ cur) :=
  resolve_override_verbatim "v9.9.9" ["v1.0.0"] "patch" "prerelease" true
    (by decide)

/--
C2: `increment_semver` with rule `prerelease` satisfies the three-branch
contract.  If the parsed current version carries a prerelease label that
contains the policy identifier as a substring, the label's trailing
dot-separated segment is bumped (`bumpPre`: incremented by one when
numeric, else a new segment "1" is appended) with major/minor/patch
unchanged; else, if the policy flag is enabled, the new label is
`identifier ++ ".1"` with the numeric triple unchanged; else the result is
a patch bump with the prerelease cleared.
-/
theorem increment_prerelease_contract (cur i : String) (f : Bool)
    (m n p : Nat) (pre : Option (List Char))
    (h : matchSemver (cur.data.dropWhile (· == 'v')) = some (m, n, p, pre)) :
    (∀ l, pre = some l → i.data <:+: l →
      increment_semver cur "prerelease" f i =
        Except.ok (renderTag m n p (some (bumpPre l)))) ∧
    ((∀ l, pre = some l → ¬(i.data <:+: l)) → f = true →
      increment_semver cur "prerelease" f i =
        Except.ok (renderTag m n p (some (i.data ++ ['.', '1'])))) ∧
    ((∀ l, pre = some l → ¬(i.data <:+: l)) → f = false →
      increment_semver cur "prerelease" f i =
        Except.ok (renderTag m n (p + 1) none)) := by
  refine ⟨?_, ?_, ?_⟩
  · intro l0 hP hinf
    have hlne : l0 ≠ [] := (matchSemver_pre_spec h l0 hP).1
    have hle : (!l0.isEmpty && containsSeq i.data l0) = true := by
      have hie : l0.isEmpty = false := by
        cases l0 with
        | nil => exact absurd rfl hlne
        | cons a t => rfl
      simp [hie, containsSeq_iff.mpr hinf]
    subst hP
    simp only [increment_semver]
    split
    · next heq => rw [h] at heq; exact absurd heq (by simp)
    · next m' n' p' pre' heq =>
      rw [h] at heq
      obtain ⟨rfl, rfl, rfl, rfl⟩ : m = m' ∧ n = n' ∧ p = p' ∧ some l0 = pre' := by
        simpa using heq
      rw [if_neg (by decide), if_neg (by decide), if_neg (by decide),
        if_pos (by trivial)]
      simp [hle]
  · intro hno hf
    subst hf
    simp only [increment_semver]
    split
    · next heq => rw [h] at heq; exact absurd heq (by simp)
    · next m' n' p' pre' heq =>
      rw [h] at heq
      obtain ⟨rfl, rfl, rfl, rfl⟩ : m = m' ∧ n = n' ∧ p = p' ∧ pre = pre' := by
        simpa using heq
      rw [if_neg (by decide), if_neg (by decide), if_neg (by decide),
        if_pos (by trivial)]
      cases pre with
      | some l =>
        have hcf : containsSeq i.data l = false := by
          rcases Bool.eq_false_or_eq_true (containsSeq i.data l) with ht | hf2
          · exact absurd (containsSeq_iff.mp ht) (hno l rfl)
          · exact hf2
        simp [hcf]
      | none => simp
  · intro hno hf
    subst hf
    simp only [increment_semver]
    split
    · next heq => rw [h] at heq; exact absurd heq (by simp)
    · next m' n' p' pre' heq =>
      rw [h] at heq
      obtain ⟨rfl, rfl, rfl, rfl⟩ : m = m' ∧ n = n' ∧ p = p' ∧ pre = pre' := by
        simpa using heq
      rw [if_neg (by decide), if_neg (by decide), if_neg (by decide),
        if_pos (by trivial)]
      cases pre with
      | some l =>
        have hcf : containsSeq i.data l = false := by
          rcases Bool.eq_false_or_eq_true (containsSeq i.data l) with ht | hf2
          · exact absurd (containsSeq_iff.mp ht) (hno l rfl)
          · exact hf2
        simp [hcf]
      | none => simp

/-- Witness for C2: the matching-label branch at `v1.2.3-beta.1` with identifier `beta`. -/
theorem increment_prerelease_contract_witness :
    increment_semver "v1.2.3-beta.1" "prerelease" true "beta" =
      Except.ok (renderTag 1 2 3 (some (bumpPre "beta.1".data))) :=
  (increment_prerelease_contract "v1.2.3-beta.1" "beta" true 1 2 3
    (some "beta.1".data) (by rfl)).1 "beta.1".data rfl ⟨[], ['.', '1'], rfl⟩

/--
C6: with no override, `resolve` returns the literal base tag "v1.0.0" and
version "1.0.0" whenever the set of normalized existing tags is empty,
regardless of the bump rule; otherwise it sorts the normalized tags
descending and increments the highest one.
-/
theorem resolve_base_tag (bump i : String) (f : Bool) (raws : List String) :
    (raws.filterMap coerce_tag_name = [] →
      resolve "" raws bump i f "" "" = Except.ok ("v1.0.0", "1.0.0")) ∧
    (raws.filterMap coerce_tag_name ≠ [] →
      ∃ latest rest, sort_versions_desc (raws.filterMap coerce_tag_name) =
        latest :: rest ∧
        resolve "" raws bump i f "" "" =
          (increment_semver latest bump f i).map (fun t => (t, stripLeadingV t))) := by
  constructor
  · intro he
    simp only [resolve]
    rw [if_neg (by simp), he]
    rfl
  · intro hne
    have hlen : (sort_versions_desc (raws.filterMap coerce_tag_name)).length =
        (raws.filterMap coerce_tag_name).length := by
      simp [sort_versions_desc]
    have hsne : sort_versions_desc (raws.filterMap coerce_tag_name) ≠ [] := by
      intro h0
      rw [h0] at hlen
      exact hne (List.eq_nil_of_length_eq_zero hlen.symm)
    obtain ⟨latest, rest, hsort⟩ := List.exists_cons_of_ne_nil hsne
    refine ⟨latest, rest, hsort, ?_⟩
    have hie : (raws.filterMap coerce_tag_name).isEmpty = false := by
      cases hh : raws.filterMap coerce_tag_name with
      | nil => exact absurd hh hne
      | cons a t => rfl
    have hdet : determine_new_tag (raws.filterMap coerce_tag_name) bump i f =
        increment_semver latest bump f i := by
      simp only [determine_new_tag]
      rw [if_neg (by simp [hie]), hsort]
      rfl
    simp only [resolve]
    rw [if_neg (by simp), hdet]
    cases hInc : increment_semver latest bump f i with
    | error e => rfl
    | ok t => rfl

/-- Witness for C6: the empty case at rule `major` and the tag `v1.2.3` at rule `minor`. -/
theorem resolve_base_tag_witness :
    resolve "" [] "major" "prerelease" true "" "" =
      Except.ok ("v1.0.0", "1.0.0") ∧
    ∃ latest rest, sort_versions_desc (["v1.2.3"].filterMap coerce_tag_name) =
      latest :: rest ∧
      resolve "" ["v1.2.3"] "minor" "prerelease" true "" "" =
        (increment_semver latest "minor" true "prerelease").map
          (fun t => (t, stripLeadingV t)) :=
  ⟨(resolve_base_tag "major" "prerelease" true []).1 rfl,
   (resolve_base_tag "minor" "prerelease" true ["v1.2.3"]).2 (by decide)⟩

/--
C5: the comparison underlying `sort_versions_desc` — the spec-modelled
total ordering on sort keys — is total, antisymmetric on keys and
transitive, and for every list of tags the sort returns a permutation of
its input, ordered descending by key (equal-ranked tags included, without
any failure case).
-/
theorem sort_versions_desc_spec :
    (∀ a b : String, sortKey b ≤ sortKey a ∨ sortKey a ≤ sortKey b) ∧
    (∀ a b : String, sortKey b ≤ sortKey a → sortKey a ≤ sortKey b →
      sortKey a = sortKey b) ∧
    (∀ a b c : String, sortKey b ≤ sortKey a → sortKey c ≤ sortKey b →
      sortKey c ≤ sortKey a) ∧
    (∀ tags : List String, (sort_versions_desc tags).Perm tags ∧
      (sort_versions_desc tags).Pairwise (fun a b => sortKey b ≤ sortKey a)) := by
  refine ⟨fun a b => le_total _ _, fun a b h1 h2 => le_antisymm h2 h1,
    fun a b c h1 h2 => le_trans h2 h1, fun tags => ⟨?_, ?_⟩⟩
  · simp only [sort_versions_desc]
    exact List.mergeSort_perm tags _
  · have hs : (List.mergeSort tags
        (fun a b : String => decide (sortKey b ≤ sortKey a))).Pairwise
        (fun a b => decide (sortKey b ≤ sortKey a) = true) :=
      List.sorted_mergeSort
        (fun a b c hab hbc => by
          simp only [decide_eq_true_eq] at hab hbc ⊢
          exact le_trans hbc hab)
        (fun a b => by
          rcases le_total (sortKey b) (sortKey a) with hle | hle <;> simp [hle])
        tags
    simp only [sort_versions_desc]
    exact hs.imp (fun hab => by simpa using hab)

/-- Witness for C5: antisymmetry and transitivity applied at equal concrete keys,
and the sort applied to a concrete list with duplicates. -/
theorem sort_versions_desc_spec_witness :
    sortKey "v1.0.0" = sortKey "v1.0.0" ∧
    sortKey "v1.0.0" ≤ sortKey "v1.0.0" ∧
    (sort_versions_desc ["v1.0.0", "v2.0.0", "v1.0.0"]).Perm
      ["v1.0.0", "v2.0.0", "v1.0.0"] :=
  ⟨sort_versions_desc_spec.2.1 "v1.0.0" "v1.0.0" (le_refl _) (le_refl _),
   sort_versions_desc_spec.2.2.1 "v1.0.0" "v1.0.0" "v1.0.0"
     (le_refl _) (le_refl _),
   (sort_versions_desc_spec.2.2.2 ["v1.0.0", "v2.0.0", "v1.0.0"]).1⟩

end CreateTag
